import Mathlib

/-!
# Shallow embedding of the pricewatch price-extraction engine

This file embeds the price-extraction engine of `app/scraper.py` and proves
the specification claims about it.

Modelling conventions:
* Python `str` is Lean `String`; character classes are ASCII, matching the
  explicit `[A-Za-z0-9]` classes of the source regex.
* Python `float` values are `ℚ`: the engine only ever parses decimal
  literals and compares them (no float arithmetic happens anywhere on the
  modelled paths), so rationals represent the values faithfully.
* A raised-and-not-caught Python exception is `Except.error ()`.
* The BeautifulSoup DOM is abstracted at the exact points where the engine
  reads it: a document carries the outcome of `json.loads` for each
  structured-data script, the list of `<meta>` tags, the (deduplicated)
  candidate-element sequence seen by the heuristic scanner, and a selector
  lookup function.  Everything downstream of these cut points is translated
  from the source line by line.
-/

namespace Pricewatch

/-! ## ASCII character classes (regex `[A-Za-z0-9]`, `[0-9]`, Python `\s`) -/

/-- The character class `[0-9]` of `PRICE_REGEX`. -/
def isDigitA (c : Char) : Bool := 48 ≤ c.toNat && c.toNat ≤ 57

/-- The character class `[A-Za-z0-9]` of the regex lookarounds. -/
def isAlnumA (c : Char) : Bool :=
  (65 ≤ c.toNat && c.toNat ≤ 90) || (97 ≤ c.toNat && c.toNat ≤ 122) ||
    (48 ≤ c.toNat && c.toNat ≤ 57)

/-- Python `\s` / `str.strip` whitespace, ASCII range
(space, tab, newline, carriage return, vertical tab, form feed). -/
def isWsA (c : Char) : Bool :=
  c.toNat = 32 || c.toNat = 9 || c.toNat = 10 || c.toNat = 13 ||
    c.toNat = 11 || c.toNat = 12

/-! ## String helpers (Python `in`, `.lower()`, `re.sub(r"\s+", " ", ·)`) -/

/-- `prefixL n h`: the list `n` is a prefix of `h`. -/
def prefixL : List Char → List Char → Bool
  | [], _ => true
  | _ :: _, [] => false
  | a :: as, b :: bs => a = b && prefixL as bs

/-- `containsL h n`: Python's substring test `n in h`, on char lists. -/
def containsL (hay needle : List Char) : Bool :=
  prefixL needle hay ||
    match hay with
    | [] => false
    | _ :: t => containsL t needle

/-- Python's substring test `needle in hay`. -/
def strContains (hay needle : String) : Bool := containsL hay.toList needle.toList

/-- ASCII lower-casing of one character (Python `str.lower`; every string
the engine lower-cases before comparing with its ASCII vocabularies is
compared only on ASCII content). -/
def lowerChar (c : Char) : Char :=
  if 65 ≤ c.toNat ∧ c.toNat ≤ 90 then Char.ofNat (c.toNat + 32) else c

/-- Python `str.lower()` (ASCII). -/
def pyLower (s : String) : String := String.mk (s.toList.map lowerChar)

/-- Python `" ".join(xs)`. -/
def joinSp : List String → String
  | [] => ""
  | [s] => s
  | s :: rest => s ++ " " ++ joinSp rest

/-- Python slicing `s[:n]` (by characters). -/
def takeChars (s : String) (n : Nat) : String := String.mk (s.toList.take n)

/-- Helper for `re.sub(r"\s+", " ", s)`: the flag records whether the
previous character was whitespace (i.e. we are inside a run already
replaced by a single space). -/
def normWsAux : List Char → Bool → List Char
  | [], _ => []
  | c :: r, prevWs =>
    if isWsA c then
      (if prevWs then normWsAux r true else ' ' :: normWsAux r true)
    else c :: normWsAux r false

/-- `re.sub(r"\s+", " ", s)`: every maximal whitespace run becomes one space. -/
def pyNormWs (s : String) : String := String.mk (normWsAux s.toList false)

/-- Python `str.strip()` (ASCII whitespace). -/
def pyStrip (s : String) : String :=
  String.mk (((s.toList.dropWhile isWsA).reverse.dropWhile isWsA).reverse)

/-! ## The Price Pattern Matcher (`PRICE_REGEX`, scraper.py lines 27-32)

```
(?<![A-Za-z0-9])
(\$|USD\s*)?
([0-9]{1,3}(?:,[0-9]{3})*(?:\.[0-9]{2})?|[0-9]+(?:\.[0-9]{2}))
(?![A-Za-z0-9])
```

We model `PRICE_REGEX.search` by explicit backtracking with exactly the
preference order of Python `re`: positions left to right; at a position the
optional group 1 tries `$`, then `USD` with a greedy whitespace run, then
the empty match; group 2 tries its left alternative before its right one,
with greedy sub-parts backtracking from longest to shortest; the first
combination whose tail satisfies the lookahead wins.  The function returns
group 2 (the only group the engine ever reads). -/

/-- Rests of the input after each way of matching `(\$|USD\s*)?`,
in backtracking order. -/
def markerRests (cs : List Char) : List (List Char) :=
  (match cs with
   | '$' :: r => [r]
   | 'U' :: 'S' :: 'D' :: r =>
     let n := (r.takeWhile isWsA).length
     (List.range (n + 1)).map fun j => r.drop (n - j)
   | _ => []) ++ [cs]

/-- Stages of the greedy `(?:,[0-9]{3})*`: pairs `(consumed, rest)` in
backtracking order (maximal number of comma groups first, down to zero). -/
def commaChain : List Char → List (List Char × List Char)
  | ',' :: a :: b :: c :: r =>
    if isDigitA a && isDigitA b && isDigitA c then
      ((commaChain r).map fun p => (',' :: a :: b :: c :: p.1, p.2)) ++
        [([], ',' :: a :: b :: c :: r)]
    else [([], ',' :: a :: b :: c :: r)]
  | cs => [([], cs)]

/-- Options of the greedy `(?:\.[0-9]{2})?` appended to a token `tok`:
with the decimal part first, then without. -/
def decStages (tok : List Char) (cs : List Char) : List (List Char × List Char) :=
  match cs with
  | '.' :: a :: b :: r =>
    if isDigitA a && isDigitA b then [(tok ++ ['.', a, b], r), (tok, cs)]
    else [(tok, cs)]
  | _ => [(tok, cs)]

/-- Candidates of `[0-9]{1,3}(?:,[0-9]{3})*(?:\.[0-9]{2})?`
as `(token, rest)` pairs in backtracking order. -/
def altA (cs : List Char) : List (List Char × List Char) :=
  let m := min 3 (cs.takeWhile isDigitA).length
  (List.range m).flatMap fun j =>
    let L := m - j
    (commaChain (cs.drop L)).flatMap fun p => decStages (cs.take L ++ p.1) p.2

/-- Candidates of `[0-9]+(?:\.[0-9]{2})` in backtracking order. -/
def altB (cs : List Char) : List (List Char × List Char) :=
  let n := (cs.takeWhile isDigitA).length
  (List.range n).filterMap fun j =>
    let L := n - j
    match cs.drop L with
    | '.' :: a :: b :: r =>
      if isDigitA a && isDigitA b then some (cs.take L ++ ['.', a, b], r) else none
    | _ => none

/-- Candidates of group 2, left alternative before right. -/
def numCandidates (cs : List Char) : List (List Char × List Char) :=
  altA cs ++ altB cs

/-- The lookbehind `(?<![A-Za-z0-9])` at a position whose previous
character is `prev` (`none` at the start of the string). -/
def lookbehindOk : Option Char → Bool
  | none => true
  | some c => !isAlnumA c

/-- The lookahead `(?![A-Za-z0-9])`. -/
def lookaheadOk : List Char → Bool
  | [] => true
  | c :: _ => !isAlnumA c

/-- One anchored match attempt of `PRICE_REGEX` at a fixed position;
returns group 2 of the first successful backtracking combination. -/
def matchAtPos (prev : Option Char) (cs : List Char) : Option (List Char) :=
  if lookbehindOk prev then
    (markerRests cs).findSome? fun r =>
      ((numCandidates r).find? fun p => lookaheadOk p.2).map (·.1)
  else none

/-- Scan positions left to right, as `re.search` does. -/
def searchFrom (prev : Option Char) : List Char → Option (List Char)
  | [] => matchAtPos prev []
  | c :: r =>
    match matchAtPos prev (c :: r) with
    | some tok => some tok
    | none => searchFrom (some c) r

/-- `PRICE_REGEX.search(s)`, returning `m.group(2)` of the first match. -/
def priceSearch (s : String) : Option String :=
  (searchFrom none s.toList).map String.mk

/-! ## Numeric conversion (`float(m.group(2).replace(",", ""))`) -/

/-- Value of a digit string. -/
def digitsVal (ds : List Char) : ℕ :=
  ds.foldl (fun acc c => 10 * acc + (c.toNat - 48)) 0

/-- Python `str.replace(",", "")`. -/
def stripCommas (s : String) : String := String.mk (s.toList.filter (· ≠ ','))

/-- Python `float(s)` on the literals this engine can feed it: optional
surrounding whitespace, an optional sign, then `digits[.digits]` or
`.digits` with at least one digit.  (Exponent and `inf`/`nan` spellings
never occur on any modelled path and are not modelled.)  `none` models the
`ValueError` that `float` raises on anything else. -/
def pyFloat (s : String) : Option ℚ :=
  let cs := ((s.toList.dropWhile isWsA).reverse.dropWhile isWsA).reverse
  let sgn : ℤ := if cs.head? = some '-' then -1 else 1
  let cs1 := if cs.head? = some '-' ∨ cs.head? = some '+' then cs.tail else cs
  let ip := cs1.takeWhile isDigitA
  let rest := cs1.drop ip.length
  if rest = [] then
    if ip.isEmpty then none else some (mkRat (sgn * (digitsVal ip : ℤ)) 1)
  else if rest.head? = some '.' then
    let fp := rest.tail.takeWhile isDigitA
    if rest.tail.drop fp.length = [] ∧ ¬(ip.isEmpty ∧ fp.isEmpty) then
      some (mkRat (sgn * ((digitsVal ip * 10 ^ fp.length + digitsVal fp : ℕ) : ℤ)) (10 ^ fp.length))
    else none
  else none

/-! ## Vocabulary constants (scraper.py lines 45-53)

The source holds these as Python sets and only ever asks
`any(w in text for w in SET)`, which is independent of iteration order,
so lists are a faithful model. -/

def NEG_WORDS : List String :=
  ["save", "saving", "was", "strike", "strikethrough",
   "coupon", "per month", "msrp", "list", "discount"]

def POS_NEAR : List String :=
  ["final", "current", "your price", "our price", "add to cart", "buy"]

/-! ## Candidate elements

An `Elem` abstracts a BeautifulSoup `Tag` at exactly the fields the scorer
and scanner read: `id`, `class`, `get_text(" ", strip=True)` of the element
itself, and the `get_text(" ", strip=True)` of its successive parents
(nearest first). -/

structure Elem where
  idAttr : Option String
  classes : List String
  /-- the element's own `get_text(" ", strip=True)` -/
  text : String
  /-- `get_text(" ", strip=True)` of each ancestor, nearest parent first -/
  ancestors : List String
deriving DecidableEq

deriving instance DecidableEq for Except

/-- `_text` (scraper.py 176-185): whitespace-normalized element text. -/
def textOf (el : Elem) : String := pyNormWs el.text

/-- `_nearby_text` (scraper.py 188-206): the lower-cased texts of up to 3
ancestors, joined with spaces and truncated to 1000 characters. -/
def nearby_text (el : Elem) : String :=
  takeChars (joinSp ((el.ancestors.take 3).map pyLower)) 1000

/-- The combined id+class string of `_candidate_score` (scraper.py 223-226):
`" ".join(filter(None, [el.get("id") or "", " ".join(el.get("class") or [])])).lower()`. -/
def idClass (el : Elem) : String :=
  pyLower (joinSp (([el.idAttr.getD "", joinSp el.classes]).filter (· ≠ "")))

/-- `_candidate_score` (scraper.py 209-244), translated statement by
statement. -/
def candidate_score (el : Elem) (price_val : ℚ) (raw_text : String) : Int :=
  let score : Int := 0
  let score := if strContains (idClass el) "price" then score + 3 else score
  let score :=
    if (["final", "current", "sale"]).any (fun w => strContains (idClass el) w)
    then score + 1 else score
  let low := pyLower raw_text
  let score := if NEG_WORDS.any (fun w => strContains low w) then score - 3 else score
  let near := nearby_text el
  let score := if POS_NEAR.any (fun w => strContains near w) then score + 2 else score
  let score := if price_val ≤ 0 then score - 5 else score
  score

/-! ## Heuristic Candidate Scanner (`smart_find_price`, scraper.py 247-297)

The candidate-collection phase (CSS hint selectors plus text nodes
containing `$`/`USD`, deduplicated by object identity, lines 259-282) is
DOM traversal; its output — the deduplicated candidate sequence in
traversal order — is the `List Elem` input here.  The per-candidate loop
body (lines 277-296) is translated directly. -/

/-- Loop body, lines 284-290: extract the normalized text, search the
price regex (skip on no match), convert (`float` may raise — unguarded
here), and score. -/
def elemStep (el : Elem) : Except Unit (Option (Int × ℚ)) :=
  let raw := textOf el
  match priceSearch raw with
  | none => .ok none
  | some tok =>
    match pyFloat (stripCommas tok) with
    | none => .error ()
    | some val => .ok (some (candidate_score el val raw, val))

/-- Line 292-293: `if (best is None) or (s > best[0]) or (s == best[0] and
val <= best[1]): best = (s, val, el)`. -/
def updateBest (best : Option (Int × ℚ × Elem)) (s : Int) (val : ℚ) (el : Elem) :
    Option (Int × ℚ × Elem) :=
  match best with
  | none => some (s, val, el)
  | some (bs, bv, be) =>
    if s > bs ∨ (s = bs ∧ val ≤ bv) then some (s, val, el) else some (bs, bv, be)

/-- The candidate loop of `smart_find_price` (lines 274-293). -/
def smartScanGo (best : Option (Int × ℚ × Elem)) : List Elem → Except Unit (Option (Int × ℚ × Elem))
  | [] => .ok best
  | el :: rest =>
    match elemStep el with
    | .error e => .error e
    | .ok none => smartScanGo best rest
    | .ok (some (s, val)) => smartScanGo (updateBest best s val el) rest

/-- `smart_find_price` (lines 247-297) on the deduplicated candidate
sequence: lines 295-297 return `best[1], "USD"`. -/
def smart_find_price (els : List Elem) : Except Unit (Option (ℚ × String)) :=
  match smartScanGo none els with
  | .error e => .error e
  | .ok (some (_, v, _)) => .ok (some (v, "USD"))
  | .ok none => .ok none

/-! ## Structured-Data Extractor (`parse_price_from_jsonld`, scraper.py 116-146)

JSON values parsed by `json.loads`.  Python objects are association lists
(keys unique after `json.loads`, first-match lookup). -/

inductive JVal where
  | null
  | bool (b : Bool)
  | num (q : ℚ)
  | str (s : String)
  | arr (items : List JVal)
  | obj (fields : List (String × JVal))

/-- Python truthiness of a JSON value. -/
def pyTruthy : JVal → Bool
  | .null => false
  | .bool b => b
  | .num q => decide (q ≠ 0)
  | .str s => s != ""
  | .arr xs => !xs.isEmpty
  | .obj fs => !fs.isEmpty

def jLookup (fs : List (String × JVal)) (k : String) : Option JVal :=
  (fs.find? (fun p => p.1 == k)).map (·.2)

/-- `v is None` (only `json.loads` null maps to Python `None`). -/
def JVal.isNull : JVal → Bool
  | .null => true
  | _ => false

/-- `v.get(k)`: `None` when the key is absent; `AttributeError` when `v` is
not a dict (this is the unguarded call at lines 134 and 139). -/
def pyGet1 : JVal → String → Except Unit JVal
  | .obj fs, k => .ok ((jLookup fs k).getD .null)
  | _, _ => .error ()

/-- `v.get(k, d)`: the default is used only when the key is absent. -/
def pyGetD : JVal → String → JVal → Except Unit JVal
  | .obj fs, k, d => .ok ((jLookup fs k).getD d)
  | _, _, _ => .error ()

/-- `float(str(price).replace(",", ""))` (line 143).  `str` of a JSON
number round-trips through `float`; a string goes through the float
parser after comma stripping; `str` of anything else
(`"None"`, `"True"`, `"[...]"`, `"{...}"`) makes `float` raise. -/
def pyFloatOfJVal : JVal → Option ℚ
  | .num q => some q
  | .str s => pyFloat (stripCommas s)
  | _ => none

/-- `offers = offers[0] if isinstance(offers, list)` (lines 137-138);
`offers[0]` on an empty list would be an `IndexError`, but that case is
unreachable because `[]` is falsy. -/
def offersHead : JVal → Except Unit JVal
  | .arr [] => .error ()
  | .arr (o :: _) => .ok o
  | v => .ok v

/-- `items = data if isinstance(data, list) else [data]` (line 132). -/
def jsonldItemList (data : JVal) : List JVal :=
  match data with
  | .arr xs => xs
  | d => [d]

/-- Inner loop over `items` (lines 133-145). -/
def jsonldItems : List JVal → Except Unit (Option (ℚ × JVal))
  | [] => .ok none
  | item :: rest =>
    match pyGet1 item "offers" with
    | .error e => .error e
    | .ok offers0 =>
      if !pyTruthy offers0 then jsonldItems rest
      else
        match offersHead offers0 with
        | .error e => .error e
        | .ok offers =>
          match pyGet1 offers "price" with
          | .error e => .error e
          | .ok price =>
            match pyGetD offers "priceCurrency" (.str "USD") with
            | .error e => .error e
            | .ok currency =>
              if price.isNull then jsonldItems rest   -- `if price is not None` fails
              else
                match pyFloatOfJVal price with
                | some v => .ok (some (v, currency))
                | none => jsonldItems rest            -- `except Exception: pass`

/-- `parse_price_from_jsonld` (lines 116-146) over the `json.loads`
outcomes of the document's structured-data scripts, in document order
(`none` = `json.loads` raised, line 128-131 skips the script). -/
def parse_price_from_jsonld : List (Option JVal) → Except Unit (Option (ℚ × JVal))
  | [] => .ok none
  | none :: rest => parse_price_from_jsonld rest
  | some data :: rest =>
    match jsonldItems (jsonldItemList data) with
    | .error e => .error e
    | .ok (some r) => .ok (some r)
    | .ok none => parse_price_from_jsonld rest

/-! ## Meta-Tag Extractor (`parse_price_from_meta`, scraper.py 149-173) -/

/-- A `<meta>` tag, restricted to the attributes the extractor reads. -/
structure MetaTag where
  property : Option String := none
  itemprop : Option String := none
  nameAttr : Option String := none
  content : Option String := none
deriving DecidableEq

/-- One entry of the `metas` loop (lines 165-172): `soup.find("meta",
attrs={k: v})` is the first tag whose attribute `k` equals `v`; the body
runs when the tag exists with truthy (non-empty) content. -/
def metaTry (doc : List MetaTag) (get : MetaTag → Option String) (v : String) :
    Except Unit (Option (ℚ × String)) :=
  match doc.find? (fun t => get t == some v) with
  | none => .ok none
  | some t =>
    match t.content with
    | none => .ok none
    | some c =>
      if c = "" then .ok none
      else
        match priceSearch c with
        | none => .ok none
        | some tok =>
          match pyFloat (stripCommas tok) with
          | none => .error ()               -- `float` raise would escalate (not suppressed)
          | some val => .ok (some (val, "USD"))

/-- The `metas` list of identities checked, in source order (lines 160-164). -/
def metaIdentities : List ((MetaTag → Option String) × String) :=
  [(MetaTag.property, "product:price:amount"),
   (MetaTag.itemprop, "price"),
   (MetaTag.nameAttr, "twitter:data1")]

def metaLoop (doc : List MetaTag) : List ((MetaTag → Option String) × String) →
    Except Unit (Option (ℚ × String))
  | [] => .ok none
  | (get, v) :: rest =>
    match metaTry doc get v with
    | .error e => .error e
    | .ok (some r) => .ok (some r)
    | .ok none => metaLoop doc rest

/-- `parse_price_from_meta` (lines 149-173). -/
def parse_price_from_meta (doc : List MetaTag) : Except Unit (Option (ℚ × String)) :=
  metaLoop doc metaIdentities

/-! ## Extraction Orchestrator (`get_price`, scraper.py 300-366)

A `Doc` is one parsed HTML payload, abstracted at the points where the
strategies read it.  `get_price` takes the raw-fetch document, the
rendered-fetch document (`none` when `fetch_html_js` raises — that
exception is caught at line 363), the `settings.use_js_fallback` flag, and
the optional selector. -/

structure Doc where
  /-- `soup.title.string` (`none`: no title tag or no string) -/
  titleStr : Option String
  /-- `soup.select_one(sel)`, as the element's `get_text(" ", strip=True)`;
  `none` covers both "no element" and a raising selector (suppressed) -/
  selMatch : String → Option String
  /-- `json.loads` outcome per `application/ld+json` script, document order -/
  scripts : List (Option JVal)
  metas : List MetaTag
  /-- deduplicated scanner candidates in traversal order -/
  scanEls : List Elem

/-- `extract_title` (lines 102-113); the argument is `soup.title.string`. -/
def extract_title : Option String → Option String
  | some s => if s = "" then none else some (takeChars (pyStrip s) 200)
  | none => none

/-- The selector attempt (lines 322-328 / 347-353): all of it sits inside
`with suppress(Exception)`, so a failed `float` conversion (`none` here)
falls through exactly like a missing element or absent regex match. -/
def selector_attempt (d : Doc) (sel : String) : Option ℚ :=
  match d.selMatch sel with
  | none => none
  | some txt =>
    match priceSearch (pyNormWs txt) with
    | none => none
    | some tok => pyFloat (stripCommas tok)

/-- `if selector:` guard — `None` and the empty string are falsy. -/
def selTry (d : Doc) : Option String → Option ℚ
  | none => none
  | some s => if s != "" then selector_attempt d s else none

/-- The rendered-fallback chain (lines 347-362); it runs inside the
`try` of line 343, so any `Except.error` it produces is caught by the
caller. -/
def js_phase (d2 : Doc) (sel : Option String) : Except Unit (Option (ℚ × JVal)) :=
  match selTry d2 sel with
  | some v => .ok (some (v, .str "USD"))
  | none =>
    match parse_price_from_jsonld d2.scripts with
    | .error e => .error e
    | .ok (some (v, cur)) => .ok (some (v, cur))
    | .ok none =>
      match parse_price_from_meta d2.metas with
      | .error e => .error e
      | .ok (some (v, c)) => .ok (some (v, .str c))
      | .ok none =>
        match smart_find_price d2.scanEls with
        | .error e => .error e
        | .ok (some (v, c)) => .ok (some (v, .str c))
        | .ok none => .ok none

/-- `get_price` (lines 300-366).  The currency slot of the result triple is
a `JVal` because the structured-data path returns the verbatim
`priceCurrency` JSON value; every other path produces the Python string
`"USD"`, i.e. `JVal.str "USD"`. -/
def get_price (d : Doc) (jsD : Option Doc) (useJs : Bool) (sel : Option String) :
    Except Unit (Option ℚ × JVal × Option String) :=
  let title := extract_title d.titleStr
  match selTry d sel with
  | some v => .ok (some v, .str "USD", title)
  | none =>
    match parse_price_from_jsonld d.scripts with
    | .error e => .error e                           -- lines 331-334: no handler → escalates
    | .ok (some (v, cur)) => .ok (some v, cur, title)
    | .ok none =>
      match parse_price_from_meta d.metas with
      | .error e => .error e
      | .ok (some (v, c)) => .ok (some v, .str c, title)
      | .ok none =>
        match smart_find_price d.scanEls with
        | .error e => .error e
        | .ok (some (v, c)) => .ok (some v, .str c, title)
        | .ok none =>
          if useJs then
            match jsD with
            | none => .ok (none, .str "USD", title)  -- fetch_html_js raised; caught at 363
            | some d2 =>
              match js_phase d2 sel with
              | .ok (some (v, cur)) => .ok (some v, cur, title)
              | _ => .ok (none, .str "USD", title)   -- no result, or exception caught at 363
          else .ok (none, .str "USD", title)

/-! ## Spec-side definitions

These are written from the specification's / claims' wording (not from the
source) and are only used to state claims for comparison with the
source-derived definitions above. -/

/-- Spec wording, §4.1: an optional trailing `.NN`. -/
def decOptB : List Char → Bool
  | [] => true
  | ['.', a, b] => isDigitA a && isDigitA b
  | _ => false

/-- Comma groups followed by an optional trailing `.NN`. -/
def groupsThenDec : List Char → Bool
  | ',' :: a :: b :: c :: r =>
    if isDigitA a && isDigitA b && isDigitA c then groupsThenDec r
    else decOptB (',' :: a :: b :: c :: r)
  | cs => decOptB cs

/-- Spec shape (a): 1-3 leading digits, then groups of exactly 3 digits
separated by commas, with an optional trailing `.NN`. -/
def isShapeA (cs : List Char) : Bool :=
  let lead := cs.takeWhile isDigitA
  decide (1 ≤ lead.length) && decide (lead.length ≤ 3) && groupsThenDec (cs.drop lead.length)

/-- Spec shape (b): plain digits with a mandatory trailing `.NN`. -/
def isShapeB (cs : List Char) : Bool :=
  let lead := cs.takeWhile isDigitA
  decide (1 ≤ lead.length) &&
    (match cs.drop lead.length with
     | ['.', a, b] => isDigitA a && isDigitA b
     | _ => false)

/-- Derivations of comma-group sequences `(",ddd")*`, used to carry the
structure of the middle part of a regex token through proofs. -/
inductive Groups : List Char → Prop
  | nil : Groups []
  | cons (a b c : Char) (r : List Char) : isDigitA a = true → isDigitA b = true →
      isDigitA c = true → Groups r → Groups (',' :: a :: b :: c :: r)

/-- Structural form of every token `PRICE_REGEX` can produce as group 2:
a nonempty digit block, then comma groups, then an optional `.NN`; the
digit block exceeds 3 digits only in the no-comma-group, decimal-present
alternative. -/
def TokForm (l : List Char) : Prop :=
  ∃ lead g d, l = lead ++ g ++ d ∧ lead ≠ [] ∧ (∀ c ∈ lead, isDigitA c = true) ∧
    Groups g ∧
    (d = [] ∨ ∃ a b, isDigitA a = true ∧ isDigitA b = true ∧ d = ['.', a, b]) ∧
    (lead.length ≤ 3 ∨ (g = [] ∧ d ≠ []))

/-- The claim's "base score": the candidate score before the zero-value
penalty (spec §4.5, first four signals). -/
def base_score (el : Elem) (raw_text : String) : Int :=
  (if strContains (idClass el) "price" then 3 else 0) +
    (if (["final", "current", "sale"]).any (fun w => strContains (idClass el) w) then 1 else 0) +
    (if NEG_WORDS.any (fun w => strContains (pyLower raw_text) w) then -3 else 0) +
    (if POS_NEAR.any (fun w => strContains (nearby_text el) w) then 2 else 0)

/-- A meta tag carrying one of the three identities the extractor checks. -/
def isKnownMeta (t : MetaTag) : Bool :=
  t.property == some "product:price:amount" || t.itemprop == some "price" ||
    t.nameAttr == some "twitter:data1"

/-- Spec wording, §4.2 / claim C8: whether one structured-data item is
"accepted" — it has a truthy `offers` field (first entry if a list) that is
an object whose `price` is present, non-null and float-convertible — and if
so the extracted pair, with the verbatim `priceCurrency` value defaulting
to `"USD"` only when that field is absent.  Items the source would raise
on (non-objects, non-object offers) accept nothing here. -/
def offersFirst (v : JVal) : JVal :=
  match v with
  | .arr (o :: _) => o
  | .arr [] => .null
  | x => x

def acceptsOffer (item : JVal) : Option (ℚ × JVal) :=
  match item with
  | .obj fs =>
    let offers0 := (jLookup fs "offers").getD .null
    if !pyTruthy offers0 then none
    else
      match offersFirst offers0 with
      | .obj ofs =>
        let price := (jLookup ofs "price").getD .null
        if price.isNull then none
        else
          (pyFloatOfJVal price).map
            (fun v => (v, (jLookup ofs "priceCurrency").getD (.str "USD")))
      | _ => none
  | _ => none

/-- Spec wording: the pair extracted from the first accepted offers object,
scanning scripts in document order. -/
def specFirstAccepted (scripts : List (Option JVal)) : Option (ℚ × JVal) :=
  scripts.findSome? fun sc =>
    sc.bind fun data => (jsonldItemList data).findSome? acceptsOffer

/-! ## Helper lemmas -/

/-- Scientific rational literals as `mkRat`, for kernel evaluation. -/
theorem ofScientific_q (m e : ℕ) : (OfScientific.ofScientific m true e : ℚ) = mkRat m (10 ^ e) := by
  rw [← Rat.ofScientific_eq_ofScientific, Rat.ofScientific_true_def]; rfl

/-- The candidate score is the base score plus the zero-value penalty. -/
theorem candidate_score_eq_base (el : Elem) (v : ℚ) (raw : String) :
    candidate_score el v raw = base_score el raw + (if v ≤ 0 then -5 else 0) := by
  simp only [candidate_score, base_score]
  split_ifs <;> omega

/-! ## Claim theorems (part 1) -/

/-- C3: the candidate score is exactly the sum of the five signals: +3 for
"price" in the combined id+class string, +1 for final/current/sale there,
-3 for a negative-vocabulary word in the candidate's own text, +2 for a
positive-vocabulary word in the joined lower-cased text of up to 3
ancestors truncated to 1000 characters, and -5 for a non-positive value. -/
theorem candidate_score_is_signal_sum (el : Elem) (v : ℚ) (raw : String) :
    candidate_score el v raw =
      (if strContains (idClass el) "price" then 3 else 0) +
      (if (["final", "current", "sale"]).any (fun w => strContains (idClass el) w) then 1 else 0) +
      (if (["save", "saving", "was", "strike", "strikethrough", "coupon",
            "per month", "msrp", "list", "discount"]).any
           (fun w => strContains (pyLower raw) w) then -3 else 0) +
      (if (["final", "current", "your price", "our price", "add to cart", "buy"]).any
           (fun w => strContains (nearby_text el) w) then 2 else 0) +
      (if v ≤ 0 then -5 else 0) := by
  simp only [candidate_score, NEG_WORDS, POS_NEAR]
  split_ifs <;> omega

/-- C9: the candidate score always lies between -8 and +6. -/
theorem candidate_score_bounds (el : Elem) (v : ℚ) (raw : String) :
    -8 ≤ candidate_score el v raw ∧ candidate_score el v raw ≤ 6 := by
  simp only [candidate_score]
  constructor <;> (split_ifs <;> omega)

/-- C1 (failing input): a structured-data script whose JSON parses to a
list of non-objects (`[1]`) makes `parse_price_from_jsonld` raise
(`item.get` on an `int` is an `AttributeError`), and `get_price` calls it
without a handler, so the exception escalates to the caller. -/
theorem get_price_raises_on_nonobject_jsonld_item :
    parse_price_from_jsonld [some (JVal.arr [JVal.num 1])] = Except.error () ∧
    parse_price_from_jsonld [some (JVal.obj [("offers", JVal.str "x")])] = Except.error () ∧
    get_price { titleStr := none, selMatch := fun _ => none,
                scripts := [some (JVal.arr [JVal.num 1])], metas := [], scanEls := [] }
        none false none = Except.error () :=
  ⟨rfl, rfl, rfl⟩

/-- C2 (counterexample): a supplied selector pointing at an element whose
text is `"$0.00"` makes `get_price` return the non-none price `0`,
which is not strictly positive. -/
theorem get_price_zero_price_cex :
    get_price { titleStr := none,
                selMatch := fun s => if s = "#p" then some "$0.00" else none,
                scripts := [], metas := [], scanEls := [] }
        none false (some "#p") = Except.ok (some 0, JVal.str "USD", none) ∧
    ¬ ((0 : ℚ) > 0) :=
  ⟨rfl, by norm_num⟩

/-- C5 (counterexample): a zero-valued candidate with base score 6
("price-final" id, purchase-intent ancestor text) is selected over a
positive-valued candidate with base score -3 ("Was $99.99"), in either
encounter order, although the positive candidate's base score is equal to
or lower than the zero candidate's. -/
theorem smart_scan_zero_over_positive_cex :
    base_score ⟨some "price-final", [], "$0.00", ["add to cart now"]⟩
        (textOf ⟨some "price-final", [], "$0.00", ["add to cart now"]⟩) = 6 ∧
    base_score ⟨none, [], "Was $99.99", []⟩ (textOf ⟨none, [], "Was $99.99", []⟩) = -3 ∧
    ((-3 : Int) ≤ 6) ∧
    elemStep ⟨some "price-final", [], "$0.00", ["add to cart now"]⟩ =
      Except.ok (some (1, 0)) ∧
    elemStep ⟨none, [], "Was $99.99", []⟩ = Except.ok (some (-3, (99.99 : ℚ))) ∧
    smart_find_price [⟨none, [], "Was $99.99", []⟩,
                      ⟨some "price-final", [], "$0.00", ["add to cart now"]⟩] =
      Except.ok (some (0, "USD")) ∧
    smart_find_price [⟨some "price-final", [], "$0.00", ["add to cart now"]⟩,
                      ⟨none, [], "Was $99.99", []⟩] =
      Except.ok (some (0, "USD")) := by
  simp only [ofScientific_q]
  exact ⟨by decide, by decide, by decide, by decide, by decide, by decide, by decide⟩

/-- C6 (counterexample): `"$1234"` — bare digits immediately preceded by a
currency marker — does not match at all, while the bare digit run in
`"a 5 b"`, preceded by no marker, does match. -/
theorem price_regex_bare_digits_cex :
    priceSearch "$1234" = none ∧ priceSearch "a 5 b" = some "5" :=
  ⟨rfl, rfl⟩

/-- C4: among two equally scored candidates with values 79.99 and 99.99,
the heuristic scanner returns 79.99 in either encounter order (ties favor
the lower value, because a tied candidate replaces the best exactly when
its value is ≤ the best's). -/
theorem smart_scan_tie_prefers_lower (e1 e2 : Elem) (s : Int)
    (h1 : elemStep e1 = Except.ok (some (s, (79.99 : ℚ))))
    (h2 : elemStep e2 = Except.ok (some (s, (99.99 : ℚ)))) :
    smart_find_price [e1, e2] = Except.ok (some ((79.99 : ℚ), "USD")) ∧
    smart_find_price [e2, e1] = Except.ok (some ((79.99 : ℚ), "USD")) := by
  constructor
  · simp [smart_find_price, smartScanGo, h1, h2, updateBest,
      (by norm_num : ¬((99.99 : ℚ) ≤ (79.99 : ℚ)))]
  · simp [smart_find_price, smartScanGo, h1, h2, updateBest,
      (by norm_num : (79.99 : ℚ) ≤ (99.99 : ℚ))]

/-- C4 witness: two plain elements with texts `"$79.99"` and `"$99.99"`
both score 0; the scan returns 79.99 in both orders. -/
theorem smart_scan_tie_prefers_lower_witness :
    smart_find_price [⟨none, [], "$79.99", []⟩, ⟨none, [], "$99.99", []⟩] =
      Except.ok (some ((79.99 : ℚ), "USD")) ∧
    smart_find_price [⟨none, [], "$99.99", []⟩, ⟨none, [], "$79.99", []⟩] =
      Except.ok (some ((79.99 : ℚ), "USD")) :=
  smart_scan_tie_prefers_lower ⟨none, [], "$79.99", []⟩ ⟨none, [], "$99.99", []⟩ 0
    (by simp only [ofScientific_q]; decide) (by simp only [ofScientific_q]; decide)

/-! ## Scanner fold lemmas -/

/-- A score produced by `elemStep` is the candidate score of that element
at its parsed value and normalized text. -/
theorem elemStep_score (el : Elem) (s : Int) (v : ℚ)
    (h : elemStep el = Except.ok (some (s, v))) :
    s = candidate_score el v (textOf el) := by
  simp only [elemStep] at h
  split at h
  · simp at h
  · split at h
    · simp at h
    · simp only [Except.ok.injEq, Option.some.injEq, Prod.mk.injEq] at h
      obtain ⟨h1, h2⟩ := h
      subst h2
      exact h1.symm

/-- The parsed value produced by `elemStep` comes from the regex token of
the element's normalized text. -/
theorem elemStep_val (el : Elem) (s : Int) (v : ℚ)
    (h : elemStep el = Except.ok (some (s, v))) :
    ∃ tok, priceSearch (textOf el) = some tok ∧ pyFloat (stripCommas tok) = some v := by
  simp only [elemStep] at h
  split at h
  · simp at h
  · split at h
    · simp at h
    · simp only [Except.ok.injEq, Option.some.injEq, Prod.mk.injEq] at h
      obtain ⟨-, h2⟩ := h
      rename_i osc tok hptok qsc val hval
      rw [h2] at hval
      exact ⟨tok, hptok, hval⟩

/-- Every best candidate the scan returns was produced by `elemStep` on
its own element. -/
theorem smartScanGo_cand (els : List Elem) :
    ∀ best r', (∀ r, best = some r → elemStep r.2.2 = Except.ok (some (r.1, r.2.1))) →
      smartScanGo best els = Except.ok (some r') →
      elemStep r'.2.2 = Except.ok (some (r'.1, r'.2.1)) := by
  induction els with
  | nil =>
    intro best r' hinv h
    simp only [smartScanGo, Except.ok.injEq] at h
    exact hinv r' h
  | cons el rest ih =>
    intro best r' hinv h
    simp only [smartScanGo] at h
    split at h
    · simp at h
    · exact ih best r' hinv h
    · rename_i s val heq
      refine ih _ r' ?_ h
      intro r hr
      rcases best with - | ⟨bs, bv, be⟩
      · simp only [updateBest, Option.some.injEq] at hr
        rw [← hr]
        exact heq
      · simp only [updateBest] at hr
        split at hr
        · simp only [Option.some.injEq] at hr
          rw [← hr]
          exact heq
        · exact hinv r hr

/-- The best score never decreases along the scan. -/
theorem smartScanGo_mono (els : List Elem) :
    ∀ b res, smartScanGo (some b) els = Except.ok res →
      ∃ r, res = some r ∧ b.1 ≤ r.1 := by
  induction els with
  | nil =>
    intro b res h
    simp only [smartScanGo, Except.ok.injEq] at h
    exact ⟨b, h.symm, le_refl _⟩
  | cons el rest ih =>
    intro b res h
    simp only [smartScanGo] at h
    split at h
    · simp at h
    · exact ih b res h
    · rename_i s val heq
      simp only [updateBest] at h
      split at h
      · rename_i hcond
        obtain ⟨r, hr, hle⟩ := ih _ res h
        refine ⟨r, hr, ?_⟩
        rcases hcond with hgt | ⟨hEq, -⟩
        · exact le_trans (le_of_lt hgt) hle
        · exact hEq ▸ hle
      · exact ih b res h

/-- The final best's score dominates the score of every candidate of the
scan. -/
theorem smartScanGo_ge (els : List Elem) :
    ∀ best res x s v, x ∈ els → elemStep x = Except.ok (some (s, v)) →
      smartScanGo best els = Except.ok res →
      ∃ r, res = some r ∧ s ≤ r.1 := by
  induction els with
  | nil => intro _ _ _ _ _ hx; exact absurd hx (List.not_mem_nil _)
  | cons el rest ih =>
    intro best res x s v hx he h
    simp only [smartScanGo] at h
    split at h
    · simp at h
    · rename_i heq
      rcases List.mem_cons.mp hx with rfl | hx
      · rw [he] at heq
        simp at heq
      · exact ih best res x s v hx he h
    · rename_i s' val' heq
      rcases List.mem_cons.mp hx with rfl | hx
      · rw [he] at heq
        simp only [Except.ok.injEq, Option.some.injEq, Prod.mk.injEq] at heq
        obtain ⟨hs', hv'⟩ := heq
        subst hs' hv'
        have hb : ∃ b', updateBest best s v x = some b' ∧ s ≤ b'.1 := by
          rcases best with - | ⟨bs, bv, be⟩
          · exact ⟨(s, v, x), rfl, le_refl s⟩
          · simp only [updateBest]
            split
            · exact ⟨(s, v, x), rfl, le_refl s⟩
            · rename_i hcond
              refine ⟨(bs, bv, be), rfl, ?_⟩
              rcases lt_trichotomy s bs with hlt | hEq | hgt
              · exact le_of_lt hlt
              · exact le_of_eq hEq
              · exact absurd (Or.inl hgt) hcond
        obtain ⟨b', hb', hsb⟩ := hb
        rw [hb'] at h
        obtain ⟨r, hr, hbr⟩ := smartScanGo_mono rest b' res h
        exact ⟨r, hr, le_trans hsb hbr⟩
      · exact ih _ res x s v hx he h

/-! ## Claim theorems (part 2) -/

/-- C5 (amended): a zero-valued candidate is never the final best of a
scan containing a positive-valued candidate whose base score is equal to
or lower than the zero candidate's base score but strictly greater than
that base score minus 5. -/
theorem smart_scan_zero_penalty_bound (els : List Elem) (z p : Elem)
    (sz sp : Int) (vp : ℚ) (r : Int × ℚ × Elem)
    (_hz : z ∈ els) (hp : p ∈ els)
    (hez : elemStep z = Except.ok (some (sz, 0)))
    (hep : elemStep p = Except.ok (some (sp, vp))) (hvp : 0 < vp)
    (hle : base_score p (textOf p) ≤ base_score z (textOf z))
    (hgt : base_score z (textOf z) - 5 < base_score p (textOf p))
    (hres : smartScanGo none els = Except.ok (some r)) :
    r.2.2 ≠ z := by
  intro hrz
  have hsz : sz = base_score z (textOf z) - 5 := by
    have h := elemStep_score z sz 0 hez
    rw [candidate_score_eq_base, if_pos (le_refl (0 : ℚ))] at h
    omega
  have hsp : sp = base_score p (textOf p) := by
    have h := elemStep_score p sp vp hep
    rw [candidate_score_eq_base, if_neg (not_le.mpr hvp), add_zero] at h
    exact h
  have hcand := smartScanGo_cand els none r (by intro r h; cases h) hres
  rw [hrz, hez] at hcand
  simp only [Except.ok.injEq, Option.some.injEq, Prod.mk.injEq] at hcand
  obtain ⟨h1, -⟩ := hcand
  obtain ⟨r', hr', hge⟩ := smartScanGo_ge els none (some r) p sp vp hp hep hres
  obtain rfl : r' = r := by simpa using hr'.symm
  omega

/-- C5 witness: with two plain candidates "$0.00" (base 0, score -5) and
"$5.00" (base 0, score 0) the final best is the positive one, so it is a
different element from the zero candidate. -/
theorem smart_scan_zero_penalty_bound_witness :
    (⟨none, [], "$5.00", []⟩ : Elem) ≠ ⟨none, [], "$0.00", []⟩ :=
  smart_scan_zero_penalty_bound
    [⟨none, [], "$0.00", []⟩, ⟨none, [], "$5.00", []⟩]
    ⟨none, [], "$0.00", []⟩ ⟨none, [], "$5.00", []⟩
    (-5) 0 5 (0, 5, ⟨none, [], "$5.00", []⟩)
    (by decide) (by decide) (by decide) (by decide) (by norm_num)
    (by decide) (by decide) (by decide)

/-! ## Regex token structure lemmas -/

theorem dropWhile_eq_self_of_head (p : Char → Bool) (l : List Char)
    (h : ∀ c, l.head? = some c → p c = false) : l.dropWhile p = l := by
  cases l with
  | nil => rfl
  | cons c t => exact List.dropWhile_cons_of_neg (by simp [h c rfl])

theorem takeWhile_append_all (p : Char → Bool) (l r : List Char)
    (hl : ∀ c ∈ l, p c = true) (hr : ∀ c, r.head? = some c → p c = false) :
    (l ++ r).takeWhile p = l := by
  induction l with
  | nil =>
    simp only [List.nil_append]
    cases r with
    | nil => rfl
    | cons c t => exact List.takeWhile_cons_of_neg (by simp [hr c rfl])
  | cons a l ih =>
    simp only [List.cons_append]
    rw [List.takeWhile_cons_of_pos (hl a (List.mem_cons_self a l)),
      ih (fun c hc => hl c (List.mem_cons_of_mem a hc))]

theorem digit_bounds (c : Char) (h : isDigitA c = true) : 48 ≤ c.toNat ∧ c.toNat ≤ 57 := by
  simpa [isDigitA] using h

theorem digit_not_ws (c : Char) (h : isDigitA c = true) : isWsA c = false := by
  obtain ⟨h1, h2⟩ := digit_bounds c h
  simp only [isWsA, Bool.or_eq_false_iff, decide_eq_false_iff_not]
  omega

theorem digit_ne (c : Char) (h : isDigitA c = true) (d : Char) (hd : d.toNat < 48) :
    c ≠ d := by
  intro hcd
  obtain ⟨h1, -⟩ := digit_bounds c h
  rw [hcd] at h1
  omega

theorem groups_head (g : List Char) (h : Groups g) : g = [] ∨ ∃ t, g = ',' :: t := by
  cases h with
  | nil => exact Or.inl rfl
  | cons a b c r _ _ _ _ => exact Or.inr ⟨_, rfl⟩

theorem groups_mem (g : List Char) (h : Groups g) :
    ∀ x ∈ g, isDigitA x = true ∨ x = ',' := by
  induction h with
  | nil => intro x hx; exact absurd hx (List.not_mem_nil x)
  | cons a b c r ha hb hc _ ih =>
    intro x hx
    simp only [List.mem_cons] at hx
    rcases hx with rfl | rfl | rfl | rfl | hx
    · exact Or.inr rfl
    · exact Or.inl ha
    · exact Or.inl hb
    · exact Or.inl hc
    · exact ih x hx

theorem groups_groupsThenDec (g : List Char) (h : Groups g) (d : List Char)
    (hd : d = [] ∨ ∃ a b, isDigitA a = true ∧ isDigitA b = true ∧ d = ['.', a, b]) :
    groupsThenDec (g ++ d) = true := by
  induction h with
  | nil =>
    rcases hd with rfl | ⟨a, b, ha, hb, rfl⟩
    · rfl
    · show decOptB ['.', a, b] = true
      simp [decOptB, ha, hb]
  | cons a b c r ha hb hc _ ih =>
    show groupsThenDec (',' :: a :: b :: c :: (r ++ d)) = true
    simp only [groupsThenDec]
    rw [if_pos (by simp [ha, hb, hc])]
    exact ih

theorem commaChain_groups (cs : List Char) : ∀ p ∈ commaChain cs, Groups p.1 := by
  induction cs using commaChain.induct with
  | case1 a b c r hguard ih =>
    intro p hp
    simp only [commaChain, if_pos hguard] at hp
    rcases List.mem_append.mp hp with hp | hp
    · obtain ⟨q, hq, rfl⟩ := List.mem_map.mp hp
      obtain ⟨⟨ha, hb⟩, hc⟩ := by simpa [Bool.and_eq_true] using hguard
      exact Groups.cons a b c q.1 ha hb hc (ih q hq)
    · obtain rfl := List.mem_singleton.mp hp
      exact Groups.nil
  | case2 a b c r hguard =>
    intro p hp
    simp only [commaChain, if_neg hguard] at hp
    obtain rfl := List.mem_singleton.mp hp
    exact Groups.nil
  | case3 cs hex =>
    intro p hp
    rw [commaChain.eq_def] at hp
    split at hp
    · rename_i a b c r
      exact (hex a b c r rfl).elim
    · obtain rfl := List.mem_singleton.mp hp
      exact Groups.nil

theorem decStages_mem (base cs : List Char) (p : List Char × List Char)
    (hp : p ∈ decStages base cs) :
    p.1 = base ∨ ∃ a b, isDigitA a = true ∧ isDigitA b = true ∧ p.1 = base ++ ['.', a, b] := by
  unfold decStages at hp
  split at hp
  · rename_i a b r
    split at hp
    · rename_i hcond
      obtain ⟨ha, hb⟩ := by simpa [Bool.and_eq_true] using hcond
      rcases List.mem_cons.mp hp with rfl | hp
      · exact Or.inr ⟨a, b, ha, hb, rfl⟩
      · obtain rfl := List.mem_singleton.mp hp
        exact Or.inl rfl
    · obtain rfl := List.mem_singleton.mp hp
      exact Or.inl rfl
  · obtain rfl := List.mem_singleton.mp hp
    exact Or.inl rfl

theorem take_digits (cs : List Char) (L : Nat) (hL : L ≤ (cs.takeWhile isDigitA).length) :
    ∀ c ∈ cs.take L, isDigitA c = true := by
  intro c hc
  obtain ⟨t, ht⟩ := List.takeWhile_prefix (l := cs) isDigitA
  have heq : cs.take L = (cs.takeWhile isDigitA).take L := by
    conv_lhs => rw [← ht]
    rw [List.take_append_of_le_length hL]
  rw [heq] at hc
  exact List.mem_takeWhile_imp (List.mem_of_mem_take hc)

theorem take_ne_nil (cs : List Char) (L : Nat) (h1 : 1 ≤ L) (h2 : L ≤ cs.length) :
    cs.take L ≠ [] := by
  have : (cs.take L).length = L := by
    rw [List.length_take]
    omega
  intro hnil
  rw [hnil] at this
  simp at this
  omega

theorem altA_tokform (cs : List Char) (p : List Char × List Char) (hp : p ∈ altA cs) :
    TokForm p.1 := by
  simp only [altA, List.mem_flatMap, List.mem_range] at hp
  obtain ⟨j, hj, q, hq, hdec⟩ := hp
  have hjm : j < min 3 (cs.takeWhile isDigitA).length := hj
  have hL1 : 1 ≤ min 3 (cs.takeWhile isDigitA).length - j := by omega
  have hL3 : min 3 (cs.takeWhile isDigitA).length - j ≤ 3 := by omega
  have hLrun : min 3 (cs.takeWhile isDigitA).length - j ≤ (cs.takeWhile isDigitA).length := by
    omega
  have hdig := take_digits cs _ hLrun
  have hne : cs.take (min 3 (cs.takeWhile isDigitA).length - j) ≠ [] :=
    take_ne_nil cs _ hL1 (le_trans hLrun (List.takeWhile_prefix _).length_le)
  have hlen : (cs.take (min 3 (cs.takeWhile isDigitA).length - j)).length ≤ 3 := by
    rw [List.length_take]
    omega
  have hg := commaChain_groups _ q hq
  rcases decStages_mem _ _ p hdec with h1 | ⟨a, b, ha, hb, h1⟩
  · exact ⟨_, q.1, [], by rw [h1, List.append_nil], hne, hdig, hg, Or.inl rfl, Or.inl hlen⟩
  · exact ⟨_, q.1, ['.', a, b], by rw [h1, List.append_assoc], hne, hdig, hg,
      Or.inr ⟨a, b, ha, hb, rfl⟩, Or.inl hlen⟩

theorem altB_tokform (cs : List Char) (p : List Char × List Char) (hp : p ∈ altB cs) :
    TokForm p.1 := by
  simp only [altB, List.mem_filterMap, List.mem_range] at hp
  obtain ⟨j, hj, hmatch⟩ := hp
  split at hmatch
  · rename_i a b r hdrop
    split at hmatch
    · rename_i hcond
      obtain ⟨ha, hb⟩ := by simpa [Bool.and_eq_true] using hcond
      obtain rfl := (Option.some.injEq _ _).mp hmatch
      have hL1 : 1 ≤ (cs.takeWhile isDigitA).length - j := by omega
      have hLrun : (cs.takeWhile isDigitA).length - j ≤ (cs.takeWhile isDigitA).length := by
        omega
      refine ⟨cs.take ((cs.takeWhile isDigitA).length - j), [], ['.', a, b],
        by rw [List.append_nil], ?_, take_digits cs _ hLrun, Groups.nil,
        Or.inr ⟨a, b, ha, hb, rfl⟩, Or.inr ⟨rfl, by simp⟩⟩
      exact take_ne_nil cs _ hL1 (le_trans hLrun (List.takeWhile_prefix _).length_le)
    · exact absurd hmatch (by simp)
  · exact absurd hmatch (by simp)

theorem matchAtPos_tokform (prev : Option Char) (cs tok : List Char)
    (h : matchAtPos prev cs = some tok) : TokForm tok := by
  unfold matchAtPos at h
  split at h
  · obtain ⟨r, hr, hfr⟩ := List.exists_of_findSome?_eq_some h
    rw [Option.map_eq_some'] at hfr
    obtain ⟨p, hfind, rfl⟩ := hfr
    have hmem := List.mem_of_find?_eq_some hfind
    rcases List.mem_append.mp (by simpa [numCandidates] using hmem) with h1 | h1
    · exact altA_tokform r p h1
    · exact altB_tokform r p h1
  · exact absurd h (by simp)

theorem searchFrom_tokform (cs : List Char) : ∀ (prev : Option Char) (tok : List Char),
    searchFrom prev cs = some tok → TokForm tok := by
  induction cs with
  | nil =>
    intro prev tok h
    exact matchAtPos_tokform prev [] tok (by simpa [searchFrom] using h)
  | cons c r ih =>
    intro prev tok h
    simp only [searchFrom] at h
    split at h
    · rename_i tokm heq
      obtain rfl := (Option.some.injEq _ _).mp h
      exact matchAtPos_tokform prev (c :: r) tokm heq
    · exact ih (some c) tok h

theorem priceSearch_tokform (s tok : String) (h : priceSearch s = some tok) :
    TokForm tok.toList := by
  unfold priceSearch at h
  rw [Option.map_eq_some'] at h
  obtain ⟨l, hl, rfl⟩ := h
  exact searchFrom_tokform s.toList none l hl

/-- Evaluation of `pyFloat` on a nonempty digit block followed by an
optional two-digit decimal part: it succeeds with a non-negative value. -/
theorem pyFloat_digits_frac (ds fs : List Char) (h1 : ds ≠ [])
    (h2 : ∀ c ∈ ds, isDigitA c = true)
    (h3 : fs = [] ∨ ∃ a b, isDigitA a = true ∧ isDigitA b = true ∧ fs = ['.', a, b]) :
    ∃ q, pyFloat (String.mk (ds ++ fs)) = some q ∧ 0 ≤ q := by
  obtain ⟨d0, ds', rfl⟩ : ∃ d0 ds', ds = d0 :: ds' := by
    cases ds with
    | nil => exact absurd rfl h1
    | cons a t => exact ⟨a, t, rfl⟩
  have hd0 : isDigitA d0 = true := h2 d0 (List.mem_cons_self _ _)
  have hfs_head : ∀ c, fs.head? = some c → isDigitA c = false := by
    intro c hc
    rcases h3 with rfl | ⟨a, b, -, -, rfl⟩
    · exact absurd hc (by simp)
    · simp only [List.head?_cons, Option.some.injEq] at hc
      rw [← hc]
      decide
  have hws1 : ((d0 :: ds') ++ fs).dropWhile isWsA = (d0 :: ds') ++ fs := by
    apply dropWhile_eq_self_of_head
    intro c hc
    simp only [List.cons_append, List.head?_cons, Option.some.injEq] at hc
    rw [← hc]
    exact digit_not_ws d0 hd0
  have hlast : ((d0 :: ds') ++ fs).getLast? = some d0 ∨
      ∃ b, ((d0 :: ds') ++ fs).getLast? = some b ∧ isDigitA b = true := by
    rcases h3 with rfl | ⟨a, b, -, hb, rfl⟩
    · right
      refine ⟨(d0 :: ds').getLast (by simp), ?_, ?_⟩
      · rw [List.append_nil, List.getLast?_eq_getLast]
      · exact h2 _ (List.getLast_mem _)
    · right
      refine ⟨b, ?_, hb⟩
      rw [show (d0 :: ds') ++ ['.', a, b] = ((d0 :: ds') ++ ['.', a]) ++ [b] by
        simp [List.append_assoc]]
      exact List.getLast?_concat _
  have hws2 : ((d0 :: ds') ++ fs).reverse.dropWhile isWsA = ((d0 :: ds') ++ fs).reverse := by
    apply dropWhile_eq_self_of_head
    intro c hc
    rw [List.head?_reverse] at hc
    rcases hlast with hl | ⟨b, hl, hb⟩ <;> rw [hl] at hc <;>
      obtain rfl := (Option.some.injEq _ _).mp hc
    · exact digit_not_ws _ hd0
    · exact digit_not_ws _ hb
  have htl : (String.mk ((d0 :: ds') ++ fs)).toList = (d0 :: ds') ++ fs := rfl
  have hh : ((d0 :: ds') ++ fs).head? = some d0 := by simp
  have hsgn : ¬(((d0 :: ds') ++ fs).head? = some '-') := by
    rw [hh]
    simp [digit_ne d0 hd0 '-' (by decide)]
  have hpm : ¬(((d0 :: ds') ++ fs).head? = some '-' ∨
      ((d0 :: ds') ++ fs).head? = some '+') := by
    rw [hh]
    simp [digit_ne d0 hd0 '-' (by decide), digit_ne d0 hd0 '+' (by decide)]
  have htw : ((d0 :: ds') ++ fs).takeWhile isDigitA = d0 :: ds' :=
    takeWhile_append_all isDigitA (d0 :: ds') fs h2 hfs_head
  simp only [pyFloat, htl, hws1, hws2, List.reverse_reverse, if_neg hsgn, if_neg hpm, htw,
    List.drop_left]
  rcases h3 with rfl | ⟨a, b, ha, hb, rfl⟩
  · rw [if_pos rfl, if_neg (by simp)]
    refine ⟨_, rfl, ?_⟩
    rw [Rat.mkRat_eq_div]
    positivity
  · rw [if_neg (by simp), if_pos (by simp)]
    have hfp : ([a, b] : List Char).takeWhile isDigitA = [a, b] := by
      simp [List.takeWhile_cons, ha, hb]
    simp only [List.tail_cons, hfp]
    rw [if_pos ⟨by simp, by simp⟩]
    refine ⟨_, rfl, ?_⟩
    rw [Rat.mkRat_eq_div]
    positivity

/-- Any regex token parses through `float` after comma stripping, to a
non-negative value. -/
theorem priceSearch_parse (s tok : String) (h : priceSearch s = some tok) :
    ∃ q, pyFloat (stripCommas tok) = some q ∧ 0 ≤ q := by
  obtain ⟨lead, g, d, hEq, hne, hdig, hg, hd, -⟩ := priceSearch_tokform s tok h
  have hstrip : stripCommas tok =
      String.mk (lead ++ (g.filter (fun c => c ≠ ',')) ++ d) := by
    unfold stripCommas
    rw [hEq]
    congr 1
    rw [List.filter_append, List.filter_append]
    congr 1
    · congr 1
      rw [List.filter_eq_self]
      intro c hc
      simpa using digit_ne c (hdig c hc) ',' (by decide)
    · rw [List.filter_eq_self]
      intro c hc
      rcases hd with rfl | ⟨a, b, ha, hb, rfl⟩
      · exact absurd hc (List.not_mem_nil c)
      · simp only [List.mem_cons] at hc
        rcases hc with rfl | rfl | rfl | hc
        · decide
        · simpa using digit_ne _ ha ',' (by decide)
        · simpa using digit_ne _ hb ',' (by decide)
        · exact absurd hc (List.not_mem_nil c)
  rw [hstrip]
  apply pyFloat_digits_frac (lead ++ g.filter (fun c => c ≠ ',')) d
  · intro hnil
    rw [List.append_eq_nil] at hnil
    exact hne hnil.1
  · intro c hc
    rcases List.mem_append.mp hc with hc | hc
    · exact hdig c hc
    · obtain ⟨hcg, hcne⟩ := List.mem_filter.mp hc
      rcases groups_mem g hg c hcg with h | rfl
      · exact h
      · simp at hcne
  · exact hd

/-! ## Claim theorems (part 3) -/

/-- C6 (amended): every matched number has shape (a) — 1-3 leading digits,
comma groups of exactly 3 digits, optional `.NN` — or shape (b) — plain
digits with a mandatory `.NN`; and a matched number consisting of bare
digits only is at most 3 digits long, independently of any currency
marker. -/
theorem price_regex_token_shapes (s tok : String) (h : priceSearch s = some tok) :
    (isShapeA tok.toList = true ∨ isShapeB tok.toList = true) ∧
    (tok.toList.all isDigitA = true → tok.toList.length ≤ 3) := by
  obtain ⟨lead, g, d, hEq, hne, hdig, hg, hd, hlen⟩ := priceSearch_tokform s tok h
  have hrest_head : ∀ c, (g ++ d).head? = some c → isDigitA c = false := by
    intro c hc
    rcases groups_head g hg with rfl | ⟨t, rfl⟩
    · simp only [List.nil_append] at hc
      rcases hd with rfl | ⟨a, b, -, -, rfl⟩
      · exact absurd hc (by simp)
      · simp only [List.head?_cons, Option.some.injEq] at hc
        rw [← hc]
        decide
    · simp only [List.cons_append, List.head?_cons, Option.some.injEq] at hc
      rw [← hc]
      decide
  have htw : tok.toList.takeWhile isDigitA = lead := by
    rw [hEq, List.append_assoc]
    exact takeWhile_append_all isDigitA lead (g ++ d) hdig hrest_head
  have hdrop : tok.toList.drop lead.length = g ++ d := by
    rw [hEq, List.append_assoc]
    have := List.drop_left lead (g ++ d)
    rw [this]
  constructor
  · rcases hlen with hl3 | ⟨rfl, hdne⟩
    · left
      simp only [isShapeA, htw, hdrop, Bool.and_eq_true, decide_eq_true_eq]
      refine ⟨⟨?_, hl3⟩, ?_⟩
      · cases lead with
        | nil => exact absurd rfl hne
        | cons a t => simp
      · exact groups_groupsThenDec g hg d hd
    · right
      rcases hd with rfl | ⟨a, b, ha, hb, rfl⟩
      · exact absurd rfl hdne
      · simp only [isShapeB, htw, hdrop, List.nil_append, Bool.and_eq_true,
          decide_eq_true_eq]
        refine ⟨?_, ?_⟩
        · cases lead with
          | nil => exact absurd rfl hne
          | cons x t => simp
        · simp [ha, hb]
  · intro hall
    have hallmem := List.all_eq_true.mp hall
    obtain rfl : d = [] := by
      rcases hd with rfl | ⟨a, b, -, -, rfl⟩
      · rfl
      · have : isDigitA '.' = true := hallmem '.' (by rw [hEq]; simp)
        exact absurd this (by decide)
    obtain rfl : g = [] := by
      rcases groups_head g hg with rfl | ⟨t, rfl⟩
      · rfl
      · have : isDigitA ',' = true := hallmem ',' (by rw [hEq]; simp)
        exact absurd this (by decide)
    rcases hlen with hl3 | ⟨-, hdne⟩
    · rw [hEq]
      simpa using hl3
    · exact absurd rfl hdne

/-- C6 amended witness, at the concrete match of `"x $12,345.67"`. -/
theorem price_regex_token_shapes_witness :
    (isShapeA (String.toList "12,345.67") = true ∨
      isShapeB (String.toList "12,345.67") = true) ∧
    ((String.toList "12,345.67").all isDigitA = true →
      (String.toList "12,345.67").length ≤ 3) :=
  price_regex_token_shapes "x $12,345.67" "12,345.67" (by rfl)

/-- C10: whenever the price regex finds a match, converting the matched
number group with commas stripped always succeeds — the match-then-convert
step in the selector path, the meta-tag extractor and the heuristic
scanner is total. -/
theorem price_regex_match_parses (s tok : String) (h : priceSearch s = some tok) :
    (pyFloat (stripCommas tok)).isSome = true := by
  obtain ⟨q, hq, -⟩ := priceSearch_parse s tok h
  rw [hq]
  rfl

/-- C10 witness, at the thousands-separated match of `"$1,299.99"`. -/
theorem price_regex_match_parses_witness :
    (pyFloat (stripCommas "1,299.99")).isSome = true :=
  price_regex_match_parses "$1,299.99" "1,299.99" (by rfl)

/-! ## Non-negativity of the regex-based extraction paths -/

theorem selector_attempt_nonneg (d : Doc) (s : String) (v : ℚ)
    (h : selector_attempt d s = some v) : 0 ≤ v := by
  unfold selector_attempt at h
  split at h
  · exact absurd h (by simp)
  · split at h
    · exact absurd h (by simp)
    · rename_i sd txt hsel pd tok htok
      obtain ⟨q, hq, h0⟩ := priceSearch_parse (pyNormWs txt) tok htok
      rw [h] at hq
      obtain rfl := Option.some.inj hq
      exact h0

theorem selTry_nonneg (d : Doc) (sel : Option String) (v : ℚ)
    (h : selTry d sel = some v) : 0 ≤ v := by
  cases sel with
  | none => exact absurd h (by simp [selTry])
  | some s =>
    simp only [selTry] at h
    split at h
    · exact selector_attempt_nonneg d s v h
    · exact absurd h (by simp)

theorem metaTry_nonneg (doc : List MetaTag) (get : MetaTag → Option String) (k : String)
    (v : ℚ) (c : String) (h : metaTry doc get k = Except.ok (some (v, c))) : 0 ≤ v := by
  unfold metaTry at h
  split at h
  · exact absurd h (by simp)
  · split at h
    · exact absurd h (by simp)
    · split at h
      · exact absurd h (by simp)
      · split at h
        · exact absurd h (by simp)
        · split at h
          · exact absurd h (by simp)
          · rename_i d1 t1 hfind d2 cstr hcontent hnemp d3 tok hps d4 val hfl
            simp only [Except.ok.injEq, Option.some.injEq, Prod.mk.injEq] at h
            obtain ⟨h1, -⟩ := h
            obtain ⟨q, hq, h0⟩ := priceSearch_parse cstr tok hps
            rw [hfl] at hq
            obtain rfl := Option.some.inj hq
            rw [← h1]
            exact h0

theorem metaLoop_nonneg (doc : List MetaTag) :
    ∀ (idents : List ((MetaTag → Option String) × String)) (v : ℚ) (c : String),
      metaLoop doc idents = Except.ok (some (v, c)) → 0 ≤ v := by
  intro idents
  induction idents with
  | nil => intro v c h; exact absurd h (by simp [metaLoop])
  | cons idv rest ih =>
    obtain ⟨g, k⟩ := idv
    intro v c h
    simp only [metaLoop] at h
    split at h
    · exact absurd h (by simp)
    · rename_i r heq
      obtain rfl : r = (v, c) := Option.some.inj (Except.ok.inj h)
      exact metaTry_nonneg doc g k v c heq
    · exact ih v c h

theorem parse_price_from_meta_nonneg (doc : List MetaTag) (v : ℚ) (c : String)
    (h : parse_price_from_meta doc = Except.ok (some (v, c))) : 0 ≤ v :=
  metaLoop_nonneg doc metaIdentities v c h

theorem elemStep_nonneg (el : Elem) (s : Int) (v : ℚ)
    (h : elemStep el = Except.ok (some (s, v))) : 0 ≤ v := by
  obtain ⟨tok, htok, hval⟩ := elemStep_val el s v h
  obtain ⟨q, hq, h0⟩ := priceSearch_parse (textOf el) tok htok
  rw [hval] at hq
  obtain rfl := Option.some.inj hq
  exact h0

theorem smartScanGo_val_nonneg (els : List Elem) :
    ∀ best r', (∀ r, best = some r → 0 ≤ r.2.1) →
      smartScanGo best els = Except.ok (some r') → 0 ≤ r'.2.1 := by
  induction els with
  | nil =>
    intro best r' hinv h
    simp only [smartScanGo, Except.ok.injEq] at h
    exact hinv r' h
  | cons el rest ih =>
    intro best r' hinv h
    simp only [smartScanGo] at h
    split at h
    · exact absurd h (by simp)
    · exact ih best r' hinv h
    · rename_i s val heq
      refine ih _ r' ?_ h
      intro r hr
      rcases best with - | ⟨bs, bv, be⟩
      · simp only [updateBest, Option.some.injEq] at hr
        rw [← hr]
        exact elemStep_nonneg el s val heq
      · simp only [updateBest] at hr
        split at hr
        · simp only [Option.some.injEq] at hr
          rw [← hr]
          exact elemStep_nonneg el s val heq
        · exact hinv r hr

theorem smart_find_price_nonneg (els : List Elem) (v : ℚ) (c : String)
    (h : smart_find_price els = Except.ok (some (v, c))) : 0 ≤ v := by
  unfold smart_find_price at h
  split at h
  · exact absurd h (by simp)
  · rename_i s' v' e' heq
    obtain ⟨rfl, -⟩ := Prod.mk.inj (Option.some.inj (Except.ok.inj h))
    exact smartScanGo_val_nonneg els none (s', v', e') (by intro r hr; cases hr) heq
  · exact absurd h (by simp)

theorem js_phase_nonneg (d2 : Doc) (sel : Option String) (v : ℚ) (cur : JVal)
    (hjs : parse_price_from_jsonld d2.scripts = Except.ok none)
    (h : js_phase d2 sel = Except.ok (some (v, cur))) : 0 ≤ v := by
  unfold js_phase at h
  split at h
  · rename_i v' heq
    obtain ⟨rfl, -⟩ := Prod.mk.inj (Option.some.inj (Except.ok.inj h))
    exact selTry_nonneg d2 sel v' heq
  · split at h
    · exact absurd h (by simp)
    · rename_i v' cur' heq
      rw [hjs] at heq
      exact absurd (Except.ok.inj heq) (by simp)
    · split at h
      · exact absurd h (by simp)
      · rename_i v' c' heq
        obtain ⟨rfl, -⟩ := Prod.mk.inj (Option.some.inj (Except.ok.inj h))
        exact parse_price_from_meta_nonneg d2.metas v' c' heq
      · split at h
        · exact absurd h (by simp)
        · rename_i v' c' heq
          obtain ⟨rfl, -⟩ := Prod.mk.inj (Option.some.inj (Except.ok.inj h))
          exact smart_find_price_nonneg d2.scanEls v' c' heq
        · exact absurd h (by simp)

/-! ## Claim theorems (part 4) -/

/-- C2 (amended): whenever `get_price` returns a non-none price and the
structured-data extractor produced no result in either phase, that price
is non-negative (it need not be strictly positive — zero is reachable);
only the structured-data path can produce anything below zero, since it
returns the JSON's number verbatim. -/
theorem get_price_nonneg (d : Doc) (jsD : Option Doc) (useJs : Bool) (sel : Option String)
    (p : ℚ) (cur : JVal) (t : Option String)
    (hj1 : parse_price_from_jsonld d.scripts = Except.ok none)
    (hj2 : ∀ d2, jsD = some d2 → parse_price_from_jsonld d2.scripts = Except.ok none)
    (h : get_price d jsD useJs sel = Except.ok (some p, cur, t)) :
    0 ≤ p := by
  unfold get_price at h
  split at h
  · rename_i v heq
    obtain ⟨h1, -⟩ := Prod.mk.inj (Except.ok.inj h)
    obtain rfl := Option.some.inj h1
    exact selTry_nonneg d sel v heq
  · split at h
    · exact absurd h (by simp)
    · rename_i v cur' heq
      rw [hj1] at heq
      exact absurd (Except.ok.inj heq) (by simp)
    · split at h
      · exact absurd h (by simp)
      · rename_i v c heq
        obtain ⟨h1, -⟩ := Prod.mk.inj (Except.ok.inj h)
        obtain rfl := Option.some.inj h1
        exact parse_price_from_meta_nonneg d.metas v c heq
      · split at h
        · exact absurd h (by simp)
        · rename_i v c heq
          obtain ⟨h1, -⟩ := Prod.mk.inj (Except.ok.inj h)
          obtain rfl := Option.some.inj h1
          exact smart_find_price_nonneg d.scanEls v c heq
        · split at h
          · split at h
            · obtain ⟨h1, -⟩ := Prod.mk.inj (Except.ok.inj h)
              exact absurd h1.symm (by simp)
            · rename_i huse jsOld d2
              split at h
              · rename_i xd v cur' heq
                obtain ⟨h1, -⟩ := Prod.mk.inj (Except.ok.inj h)
                obtain rfl := Option.some.inj h1
                exact js_phase_nonneg d2 sel v cur' (hj2 d2 rfl) heq
              · obtain ⟨h1, -⟩ := Prod.mk.inj (Except.ok.inj h)
                exact absurd h1.symm (by simp)
          · obtain ⟨h1, -⟩ := Prod.mk.inj (Except.ok.inj h)
            exact absurd h1.symm (by simp)

/-- C2 amended witness: a document whose only price signal is the meta
tag `product:price:amount` with content `"5.00"` yields price 5, which is
non-negative by the theorem. -/
theorem get_price_nonneg_witness :
    get_price { titleStr := none, selMatch := fun _ => none, scripts := [],
                metas := [{ property := some "product:price:amount", content := some "5.00" }],
                scanEls := [] }
        none false none = Except.ok (some 5, JVal.str "USD", none) ∧
    (0 : ℚ) ≤ 5 :=
  ⟨rfl,
    get_price_nonneg
      { titleStr := none, selMatch := fun _ => none, scripts := [],
        metas := [{ property := some "product:price:amount", content := some "5.00" }],
        scanEls := [] }
      none false none 5 (JVal.str "USD") none rfl (fun d2 h => by cases h) rfl⟩

/-! ## Meta-tag extractor lemmas -/

/-- `find?` over a filtered list agrees with `find?` over the full list
when the search predicate implies the filter. -/
theorem find?_filter_of_imp {α : Type} (p q : α → Bool) (l : List α)
    (h : ∀ a, p a = true → q a = true) : (l.filter q).find? p = l.find? p := by
  induction l with
  | nil => rfl
  | cons a t ih =>
    by_cases hp : p a = true
    · rw [List.filter_cons_of_pos (h a hp), List.find?_cons_of_pos _ hp,
        List.find?_cons_of_pos _ hp]
    · have hp' : p a = false := by
        cases hpa : p a
        · rfl
        · exact absurd hpa hp
      cases hqa : q a
      · rw [List.filter_cons_of_neg (by simp [hqa]), List.find?_cons_of_neg _ (by simp [hp']), ih]
      · rw [List.filter_cons_of_pos hqa, List.find?_cons_of_neg _ (by simp [hp']),
          List.find?_cons_of_neg _ (by simp [hp']), ih]

/-- `metaTry` ignores tags that do not carry the identity it looks for. -/
theorem metaTry_filter (doc : List MetaTag) (get : MetaTag → Option String) (k : String)
    (himp : ∀ t, (get t == some k) = true → isKnownMeta t = true) :
    metaTry (doc.filter isKnownMeta) get k = metaTry doc get k := by
  unfold metaTry
  rw [find?_filter_of_imp _ _ _ himp]

/-- The value of a successful `metaTry` carries currency `"USD"`. -/
theorem metaTry_currency (doc : List MetaTag) (get : MetaTag → Option String) (k : String)
    (v : ℚ) (c : String) (h : metaTry doc get k = Except.ok (some (v, c))) : c = "USD" := by
  unfold metaTry at h
  split at h
  · exact absurd h (by simp)
  · split at h
    · exact absurd h (by simp)
    · split at h
      · exact absurd h (by simp)
      · split at h
        · exact absurd h (by simp)
        · split at h
          · exact absurd h (by simp)
          · simp only [Except.ok.injEq, Option.some.injEq, Prod.mk.injEq] at h
            exact h.2.symm

/-- C7: the meta-tag extractor checks exactly the three identities
`product:price:amount`, `itemprop=price`, `twitter:data1`, in that fixed
order — a hit on the first wins, a hit on the second wins when the first
missed, and a hit on the third wins when the first two missed — returns
the parsed first regex match of the winning tag's content with currency
fixed to `"USD"`, yields no result when no known tag matches, and never
consults any tag that carries none of the three identities. -/
theorem parse_price_from_meta_contract :
    (∀ (doc : List MetaTag) (r : ℚ × String),
      metaTry doc MetaTag.property "product:price:amount" = Except.ok (some r) →
      parse_price_from_meta doc = Except.ok (some r)) ∧
    (∀ (doc : List MetaTag) (r : ℚ × String),
      metaTry doc MetaTag.property "product:price:amount" = Except.ok none →
      metaTry doc MetaTag.itemprop "price" = Except.ok (some r) →
      parse_price_from_meta doc = Except.ok (some r)) ∧
    (∀ (doc : List MetaTag) (r : ℚ × String),
      metaTry doc MetaTag.property "product:price:amount" = Except.ok none →
      metaTry doc MetaTag.itemprop "price" = Except.ok none →
      metaTry doc MetaTag.nameAttr "twitter:data1" = Except.ok (some r) →
      parse_price_from_meta doc = Except.ok (some r)) ∧
    (∀ (doc : List MetaTag) (v : ℚ) (c : String),
      parse_price_from_meta doc = Except.ok (some (v, c)) → c = "USD") ∧
    (∀ doc : List MetaTag,
      parse_price_from_meta (doc.filter isKnownMeta) = parse_price_from_meta doc) ∧
    (∀ doc : List MetaTag,
      metaTry doc MetaTag.property "product:price:amount" = Except.ok none →
      metaTry doc MetaTag.itemprop "price" = Except.ok none →
      metaTry doc MetaTag.nameAttr "twitter:data1" = Except.ok none →
      parse_price_from_meta doc = Except.ok none) := by
  refine ⟨?_, ?_, ?_, ?_, ?_, ?_⟩
  · intro doc r h
    simp only [parse_price_from_meta, metaIdentities, metaLoop, h]
  · intro doc r h1 h2
    simp only [parse_price_from_meta, metaIdentities, metaLoop, h1, h2]
  · intro doc r h1 h2 h3
    simp only [parse_price_from_meta, metaIdentities, metaLoop, h1, h2, h3]
  · intro doc v c h
    simp only [parse_price_from_meta, metaIdentities, metaLoop] at h
    split at h
    · exact absurd h (by simp)
    · rename_i r heq
      obtain rfl : r = (v, c) := Option.some.inj (Except.ok.inj h)
      exact metaTry_currency doc MetaTag.property "product:price:amount" v c heq
    · split at h
      · exact absurd h (by simp)
      · rename_i r heq
        obtain rfl : r = (v, c) := Option.some.inj (Except.ok.inj h)
        exact metaTry_currency doc MetaTag.itemprop "price" v c heq
      · split at h
        · exact absurd h (by simp)
        · rename_i r heq
          obtain rfl : r = (v, c) := Option.some.inj (Except.ok.inj h)
          exact metaTry_currency doc MetaTag.nameAttr "twitter:data1" v c heq
        · exact absurd h (by simp)
  · intro doc
    simp only [parse_price_from_meta, metaIdentities, metaLoop]
    rw [metaTry_filter doc MetaTag.property "product:price:amount"
        (by intro t ht; simp [isKnownMeta, ht]),
      metaTry_filter doc MetaTag.itemprop "price"
        (by intro t ht; simp [isKnownMeta, ht]),
      metaTry_filter doc MetaTag.nameAttr "twitter:data1"
        (by intro t ht; simp [isKnownMeta, ht])]
  · intro doc h1 h2 h3
    simp only [parse_price_from_meta, metaIdentities, metaLoop, h1, h2, h3]

/-- C7 witness: a document carrying only the `product:price:amount` meta
tag with content `"149.99"` yields `(149.99, "USD")` through the first
identity. -/
theorem parse_price_from_meta_contract_witness :
    parse_price_from_meta
        [{ property := some "product:price:amount", content := some "149.99" }] =
      Except.ok (some ((149.99 : ℚ), "USD")) :=
  parse_price_from_meta_contract.1
    [{ property := some "product:price:amount", content := some "149.99" }]
    ((149.99 : ℚ), "USD") (by simp only [ofScientific_q]; decide)

/-! ## Structured-data extractor lemmas -/

theorem pyGet1_ok (v : JVal) (k : String) (w : JVal) (h : pyGet1 v k = Except.ok w) :
    ∃ fs, v = JVal.obj fs ∧ w = (jLookup fs k).getD .null := by
  cases v <;> simp [pyGet1] at h
  case obj fs => exact ⟨fs, rfl, h.symm⟩

theorem offersFirst_of_offersHead (v w : JVal) (h : offersHead v = Except.ok w) :
    offersFirst v = w := by
  cases v with
  | arr xs =>
    cases xs with
    | nil => simp [offersHead] at h
    | cons o t =>
      simp only [offersHead, Except.ok.injEq] at h
      simpa [offersFirst] using h
  | null => simpa [offersHead, offersFirst] using h
  | bool b => simpa [offersHead, offersFirst] using h
  | num q => simpa [offersHead, offersFirst] using h
  | str s => simpa [offersHead, offersFirst] using h
  | obj fs => simpa [offersHead, offersFirst] using h

/-- When the items loop finishes without raising, its result is exactly
the first accepted offers object of the item list (or none). -/
theorem jsonldItems_spec (items : List JVal) :
    ∀ res, jsonldItems items = Except.ok res → items.findSome? acceptsOffer = res := by
  induction items with
  | nil =>
    intro res h
    simp only [jsonldItems, Except.ok.injEq] at h
    rw [← h]
    rfl
  | cons item rest ih =>
    intro res h
    rw [List.findSome?_cons]
    simp only [jsonldItems] at h
    split at h
    · exact absurd h (by simp)
    · rename_i d1 offers0 heq1
      obtain ⟨fs, rfl, rfl⟩ := pyGet1_ok item "offers" offers0 heq1
      split at h
      · rename_i htr
        have hacc : acceptsOffer (JVal.obj fs) = none := by
          simp only [acceptsOffer]
          rw [if_pos htr]
        rw [hacc]
        exact ih res h
      · rename_i htr
        split at h
        · exact absurd h (by simp)
        · rename_i d2 offers heq2
          split at h
          · exact absurd h (by simp)
          · rename_i d3 price heq3
            obtain ⟨ofs, rfl, rfl⟩ := pyGet1_ok offers "price" price heq3
            split at h
            · rename_i heq4
              exact absurd heq4 (by simp [pyGetD])
            · rename_i d4 currency heq4
              have hcur : currency = (jLookup ofs "priceCurrency").getD (.str "USD") := by
                simpa [pyGetD] using heq4.symm
              have hof := offersFirst_of_offersHead _ _ heq2
              have hacc : acceptsOffer (JVal.obj fs) =
                  (if ((jLookup ofs "price").getD .null).isNull then none
                   else (pyFloatOfJVal ((jLookup ofs "price").getD .null)).map
                     (fun v => (v, (jLookup ofs "priceCurrency").getD (.str "USD")))) := by
                simp only [acceptsOffer]
                rw [if_neg htr, hof]
              rw [hacc]
              split at h
              · rename_i hnull
                rw [if_pos hnull]
                exact ih res h
              · rename_i hnull
                rw [if_neg hnull]
                split at h
                · rename_i v heq5
                  rw [heq5]
                  obtain rfl := Except.ok.inj h
                  rw [hcur]
                  rfl
                · rename_i heq5
                  rw [heq5]
                  exact ih res h

theorem specFirstAccepted_cons_some (sc : Option JVal) (rest : List (Option JVal))
    (b : ℚ × JVal)
    (h : sc.bind (fun data => (jsonldItemList data).findSome? acceptsOffer) = some b) :
    specFirstAccepted (sc :: rest) = some b := by
  unfold specFirstAccepted
  rw [List.findSome?_cons, h]

theorem specFirstAccepted_cons_none (sc : Option JVal) (rest : List (Option JVal))
    (h : sc.bind (fun data => (jsonldItemList data).findSome? acceptsOffer) = none) :
    specFirstAccepted (sc :: rest) = specFirstAccepted rest := by
  unfold specFirstAccepted
  rw [List.findSome?_cons, h]

/-- A successful structured-data extraction is the pair of the first
accepted offers object, in document order. -/
theorem parse_price_from_jsonld_spec (scripts : List (Option JVal)) :
    ∀ (q : ℚ) (cur : JVal), parse_price_from_jsonld scripts = Except.ok (some (q, cur)) →
      specFirstAccepted scripts = some (q, cur) := by
  induction scripts with
  | nil => intro q cur h; simp [parse_price_from_jsonld] at h
  | cons sc rest ih =>
    intro q cur h
    cases sc with
    | none =>
      simp only [parse_price_from_jsonld] at h
      rw [specFirstAccepted_cons_none none rest rfl]
      exact ih q cur h
    | some data =>
      simp only [parse_price_from_jsonld] at h
      split at h
      · exact absurd h (by simp)
      · rename_i r heq
        obtain rfl := Option.some.inj (Except.ok.inj h)
        have hi := jsonldItems_spec (jsonldItemList data) (some (q, cur)) heq
        exact specFirstAccepted_cons_some _ _ _ (by rw [Option.some_bind]; exact hi)
      · rename_i heq
        have hi := jsonldItems_spec (jsonldItemList data) none heq
        rw [specFirstAccepted_cons_none _ _ (by rw [Option.some_bind]; exact hi)]
        exact ih q cur h

/-- Every successful `metaLoop` result carries currency `"USD"`. -/
theorem metaLoop_currency (doc : List MetaTag) :
    ∀ (idents : List ((MetaTag → Option String) × String)) (v : ℚ) (c : String),
      metaLoop doc idents = Except.ok (some (v, c)) → c = "USD" := by
  intro idents
  induction idents with
  | nil => intro v c h; exact absurd h (by simp [metaLoop])
  | cons idv rest ih =>
    obtain ⟨g, k⟩ := idv
    intro v c h
    simp only [metaLoop] at h
    split at h
    · exact absurd h (by simp)
    · rename_i r heq
      obtain rfl : r = (v, c) := Option.some.inj (Except.ok.inj h)
      exact metaTry_currency doc g k v c heq
    · exact ih v c h

/-- Every successful heuristic-scan result carries currency `"USD"`. -/
theorem smart_find_price_currency (els : List Elem) (v : ℚ) (c : String)
    (h : smart_find_price els = Except.ok (some (v, c))) : c = "USD" := by
  unfold smart_find_price at h
  split at h
  · exact absurd h (by simp)
  · exact (Prod.mk.inj (Option.some.inj (Except.ok.inj h))).2.symm
  · exact absurd h (by simp)

/-- The rendered-phase chain yields currency `"USD"` except through its
structured-data extractor. -/
theorem js_phase_currency (d2 : Doc) (sel : Option String) (v : ℚ) (cur : JVal)
    (h : js_phase d2 sel = Except.ok (some (v, cur))) :
    cur = JVal.str "USD" ∨
      ∃ q, parse_price_from_jsonld d2.scripts = Except.ok (some (q, cur)) := by
  unfold js_phase at h
  split at h
  · rename_i v' heq
    obtain ⟨-, rfl⟩ := Prod.mk.inj (Option.some.inj (Except.ok.inj h))
    exact Or.inl rfl
  · split at h
    · exact absurd h (by simp)
    · rename_i v' cur' heq
      obtain ⟨rfl, rfl⟩ := Prod.mk.inj (Option.some.inj (Except.ok.inj h))
      exact Or.inr ⟨v', heq⟩
    · split at h
      · exact absurd h (by simp)
      · rename_i v' c' heq
        obtain ⟨-, rfl⟩ := Prod.mk.inj (Option.some.inj (Except.ok.inj h))
        exact Or.inl (by rw [metaLoop_currency d2.metas metaIdentities v' c' heq])
      · split at h
        · exact absurd h (by simp)
        · rename_i v' c' heq
          obtain ⟨-, rfl⟩ := Prod.mk.inj (Option.some.inj (Except.ok.inj h))
          exact Or.inl (by rw [smart_find_price_currency d2.scanEls v' c' heq])
        · exact absurd h (by simp)

/-! ## Claim theorems (part 5) -/

/-- C8: the currency of every `get_price` result is the Python string
`"USD"` on every path except structured data; a structured-data hit
returns the verbatim `priceCurrency` value of the first offers object it
accepts (default `"USD"` only when the field is absent) with no
validation, so an arbitrary JSON value — not even a string — can become
the returned currency. -/
theorem get_price_currency_contract :
    (∀ (d : Doc) (jsD : Option Doc) (useJs : Bool) (sel : Option String)
        (p : Option ℚ) (cur : JVal) (t : Option String),
      get_price d jsD useJs sel = Except.ok (p, cur, t) →
      cur = JVal.str "USD" ∨
        (∃ q, parse_price_from_jsonld d.scripts = Except.ok (some (q, cur))) ∨
        (∃ d2 q, jsD = some d2 ∧
          parse_price_from_jsonld d2.scripts = Except.ok (some (q, cur)))) ∧
    (∀ (scripts : List (Option JVal)) (q : ℚ) (cur : JVal),
      parse_price_from_jsonld scripts = Except.ok (some (q, cur)) →
      specFirstAccepted scripts = some (q, cur)) ∧
    (∀ v : JVal,
      get_price { titleStr := none, selMatch := fun _ => none,
                  scripts := [some (JVal.obj [("offers",
                    JVal.obj [("price", JVal.num 1), ("priceCurrency", v)])])],
                  metas := [], scanEls := [] } none false none =
        Except.ok (some 1, v, none)) := by
  refine ⟨?_, parse_price_from_jsonld_spec, fun v => rfl⟩
  intro d jsD useJs sel p cur t h
  unfold get_price at h
  split at h
  · rename_i v heq
    obtain ⟨-, rfl, -⟩ := Prod.mk.inj (Except.ok.inj h) |>.imp id Prod.mk.inj
    exact Or.inl rfl
  · split at h
    · exact absurd h (by simp)
    · rename_i v cur' heq
      obtain ⟨-, h2⟩ := Prod.mk.inj (Except.ok.inj h)
      obtain ⟨rfl, -⟩ := Prod.mk.inj h2
      exact Or.inr (Or.inl ⟨v, heq⟩)
    · split at h
      · exact absurd h (by simp)
      · rename_i v c heq
        obtain ⟨-, h2⟩ := Prod.mk.inj (Except.ok.inj h)
        obtain ⟨rfl, -⟩ := Prod.mk.inj h2
        exact Or.inl (by rw [metaLoop_currency d.metas metaIdentities v c heq])
      · split at h
        · exact absurd h (by simp)
        · rename_i v c heq
          obtain ⟨-, h2⟩ := Prod.mk.inj (Except.ok.inj h)
          obtain ⟨rfl, -⟩ := Prod.mk.inj h2
          exact Or.inl (by rw [smart_find_price_currency d.scanEls v c heq])
        · split at h
          · split at h
            · obtain ⟨-, h2⟩ := Prod.mk.inj (Except.ok.inj h)
              obtain ⟨rfl, -⟩ := Prod.mk.inj h2
              exact Or.inl rfl
            · rename_i huse jsOld d2
              split at h
              · rename_i xd v cur' heq
                obtain ⟨-, h2⟩ := Prod.mk.inj (Except.ok.inj h)
                obtain ⟨rfl, -⟩ := Prod.mk.inj h2
                rcases js_phase_currency d2 sel v cur' heq with hc | ⟨q, hq⟩
                · exact Or.inl hc
                · exact Or.inr (Or.inr ⟨d2, q, rfl, hq⟩)
              · obtain ⟨-, h2⟩ := Prod.mk.inj (Except.ok.inj h)
                obtain ⟨rfl, -⟩ := Prod.mk.inj h2
                exact Or.inl rfl
          · obtain ⟨-, h2⟩ := Prod.mk.inj (Except.ok.inj h)
            obtain ⟨rfl, -⟩ := Prod.mk.inj h2
            exact Or.inl rfl

/-- C8 witness: a structured-data block with `priceCurrency` `"EUR"`
makes `get_price` return `EUR`; its extraction pair is the spec-side
first accepted offers pair. -/
theorem get_price_currency_contract_witness :
    specFirstAccepted [some (JVal.obj [("offers",
        JVal.obj [("price", JVal.str "49.99"), ("priceCurrency", JVal.str "EUR")])])] =
      some ((49.99 : ℚ), JVal.str "EUR") :=
  get_price_currency_contract.2.1
    [some (JVal.obj [("offers",
        JVal.obj [("price", JVal.str "49.99"), ("priceCurrency", JVal.str "EUR")])])]
    (49.99 : ℚ) (JVal.str "EUR") (by simp only [ofScientific_q]; rfl)

end Pricewatch
